import Mathlib

/-!
Verification of the core generator logic of `app.py` (Palworld name
generator).  Python strings are modelled as `List Char`, Python dicts as
association lists with unique keys (insertion order preserved, as in
CPython), and the random source as a tape of natural numbers: each random
draw consumes one tape element and reduces it modulo the relevant range.
Python exceptions (the only reachable one is the `IndexError` from
`adj_raw[0]` on an empty string) are modelled with `Except Unit`.
-/

namespace Palworld

abbrev PyStr := List Char

/-- ASCII letter test (`A`-`Z`, `a`-`z`); Python's notion of a cased
character restricted to the ASCII range used by the word lists. -/
def isAsciiAlpha (c : Char) : Bool :=
  (('A' ≤ c) && (c ≤ 'Z')) || (('a' ≤ c) && (c ≤ 'z'))

/-- Characters removed by Python's `str.strip()` (ASCII whitespace). -/
def isPySpace (c : Char) : Bool :=
  c = ' ' || c = '\t' || c = '\n' || c = '\r' || c = '\x0b' || c = '\x0c'

/-- The character class kept by `re.sub(r"[^A-Za-z \-']", "", w)`:
ASCII letters, space, hyphen, apostrophe. -/
def isAllowed (c : Char) : Bool :=
  isAsciiAlpha c || c = ' ' || c = '-' || c = '\x27'

/-- Python `str.strip()`. -/
def pyStrip (s : PyStr) : PyStr :=
  (((s.dropWhile isPySpace).reverse.dropWhile isPySpace).reverse)

/-- Python `str.lower()` (ASCII). -/
def pyLower (s : PyStr) : PyStr := s.map Char.toLower

/-- Python `str.upper()` (ASCII). -/
def pyUpper (s : PyStr) : PyStr := s.map Char.toUpper

/-- Python `str.title()` (ASCII): a letter that starts a run of letters is
uppercased, later letters of the run are lowercased, other characters are
kept and break the run. -/
def pyTitleGo : Bool → PyStr → PyStr
  | _, [] => []
  | prevAlpha, c :: rest =>
      if isAsciiAlpha c then
        (if prevAlpha then c.toLower else c.toUpper) :: pyTitleGo true rest
      else
        c :: pyTitleGo false rest

def pyTitle (s : PyStr) : PyStr := pyTitleGo false s

/-- A Python dict, as an association list with unique keys in insertion
order. -/
abbrev Dict (α : Type) := List (PyStr × α)

/-- `d.get(k, dflt)`. -/
def dictGetD (d : Dict α) (k : PyStr) (dflt : α) : α :=
  ((d.find? (fun p => p.1 = k)).map Prod.snd).getD dflt

/-- The random source: a tape of naturals.  Drawing takes the head
(0 when exhausted) and advances the tape. -/
abbrev Tape := List Nat

def Tape.draw (r : Tape) : Nat × Tape := (r.headD 0, r.tail)

/-! ## `normalize_words` (app.py lines 41-60) -/

/-- Splitting on `re.split(r"[\n,]+", text)`: we split at every single
delimiter (`List.splitOnP`); a run of consecutive delimiters therefore
yields extra empty pieces, which the `if not w: continue` filter below
removes, so the final result agrees with the collapsing regex split. -/
def splitDelims (text : PyStr) : List PyStr :=
  text.splitOnP (fun c => c = '\n' || c = ',')

/-- The body of the first loop of `normalize_words` for one piece:
strip, drop if empty, strip disallowed characters, strip again, drop if
empty. -/
def cleanWord (w : PyStr) : Option PyStr :=
  let w1 := pyStrip w
  if w1 = [] then none
  else
    let w2 := pyStrip (w1.filter isAllowed)
    if w2 = [] then none else some w2

/-- The `words` list built by the first loop of `normalize_words`. -/
def cleanedWords (text : PyStr) : List PyStr :=
  (splitDelims text).filterMap cleanWord

/-- The dedupe loop of `normalize_words`: keep the first occurrence of each
lowercase key, in order. -/
def dedupeBy (seen : List PyStr) : List PyStr → List PyStr
  | [] => []
  | w :: rest =>
      let key := pyLower w
      if key ∈ seen then dedupeBy seen rest
      else w :: dedupeBy (key :: seen) rest

def normalize_words (text : PyStr) : List PyStr :=
  dedupeBy [] (cleanedWords text)

/-! ## Formatter (app.py lines 66-85) -/

def apply_case (s : PyStr) (mode : PyStr) : PyStr :=
  if mode = "Title Case".data then pyTitle s
  else if mode = "UPPER".data then pyUpper s
  else if mode = "lower".data then pyLower s
  else s

def join_name (adj noun : PyStr) (separator : PyStr) : PyStr :=
  if separator = "Space".data then adj ++ " ".data ++ noun
  else if separator = "Hyphen".data then adj ++ "-".data ++ noun
  else if separator = "Underscore".data then adj ++ "_".data ++ noun
  else if separator = "of".data then adj ++ " of ".data ++ noun
  else adj ++ " ".data ++ noun

/-! ## `split_for_display` (app.py lines 162-173) -/

/-- Split `s` once at the first occurrence of `pat` (Python
`s.split(pat, 1)` when `pat` occurs): `some (left, right)` with
`s = left ++ pat ++ right` at the earliest position, `none` if `pat`
does not occur.  (`pat` is assumed non-empty, as in all uses.) -/
def splitFirstInfix (pat : PyStr) : PyStr → Option (PyStr × PyStr)
  | [] => if pat = [] then some ([], []) else none
  | c :: rest =>
      if pat.isPrefixOf (c :: rest) then
        some ([], (c :: rest).drop pat.length)
      else
        match splitFirstInfix pat rest with
        | none => none
        | some (a, b) => some (c :: a, b)

def split_for_display (final_name : PyStr) : PyStr × PyStr :=
  match splitFirstInfix " of ".data final_name with
  | some (a, b) => (a, b)
  | none =>
    match splitFirstInfix "-".data final_name with
    | some (a, b) => (a, b)
    | none =>
      match splitFirstInfix "_".data final_name with
      | some (a, b) => (a, b)
      | none =>
        match splitFirstInfix " ".data final_name with
        | some (a, b) => (a, b)
        | none => (final_name, [])

/-! ## `pick_word_from_tiers` (app.py lines 88-99) -/

/-- `rng.choices(population, weights, k=1)[0]` for a non-empty population
with positive total weight, driven by one tape draw `d`: reduce `d` modulo
the total weight and walk the cumulative weights. -/
def weightedChoiceGo : List (PyStr × Nat) → Nat → PyStr
  | [], _ => []
  | (t, w) :: rest, k => if k < w then t else weightedChoiceGo rest (k - w)

def weightedChoice (pop : List (PyStr × Nat)) (d : Nat) : PyStr :=
  weightedChoiceGo pop (d % (pop.map Prod.snd).sum)

/-- `rng.choice(seq)` for non-empty `seq`, driven by one tape draw. -/
def uniformChoice (seq : List α) (dflt : α) (d : Nat) : α :=
  seq.getD (d % seq.length) dflt

def pick_word_from_tiers (lists : Dict (List PyStr)) (tier_weights : Dict Nat)
    (r : Tape) : Option ((PyStr × PyStr) × Tape) :=
  let available := tier_weights.filter
    (fun p => 0 < p.2 && !(dictGetD lists p.1 []).isEmpty)
  if available = [] then none
  else
    let (d1, r1) := r.draw
    let tier := weightedChoice available d1
    let pool := dictGetD lists tier []
    let (d2, r2) := r1.draw
    some ((tier, uniformChoice pool [] d2), r2)

/-! ## `generate_one_name` (app.py lines 102-159) -/

/-- The mutable structures passed to `generate_one_name`: the two word-pool
dicts, the tier-weight dict and the session's used-name set (a set of
lowercased names, modelled as a list). -/
structure Store where
  adjectives : Dict (List PyStr)
  nouns : Dict (List PyStr)
  tier_weights : Dict Nat
  used_names : List PyStr
  deriving Repr, DecidableEq

/-- The `enabled_nouns` list precomputed at the top of `generate_one_name`:
all `(tier, noun)` pairs of tiers with positive weight, in dict order. -/
def enabledNouns (nouns : Dict (List PyStr)) (tier_weights : Dict Nat) :
    List (PyStr × PyStr) :=
  tier_weights.flatMap
    (fun p => if 0 < p.2 then (dictGetD nouns p.1 []).map (fun n => (p.1, n)) else [])

/-- `nouns_by_letter.get(letter, [])`: the grouped dict built from
`enabled_nouns` (empty nouns skipped, keyed by lowercased first letter)
is modelled by its lookup: the subsequence of entries with a matching
first letter. -/
def nounsByLetter (enabled : List (PyStr × PyStr)) (letter : Char) :
    List (PyStr × PyStr) :=
  enabled.filter (fun p =>
    match p.2 with
    | [] => false
    | c :: _ => c.toLower = letter)

/-- Outcome of one iteration of the `while tries < 250` body:
`continue` with the advanced random tape, or return a value. -/
inductive Attempt where
  | retry (r : Tape)
  | finish (res : Option (PyStr × PyStr × PyStr)) (r : Tape)
  deriving Repr, DecidableEq

/-- Lines 150-157: case both words, join, duplicate check, return. -/
def finishPair (st : Store) (separator case_mode : PyStr) (avoid_duplicates : Bool)
    (adj_tier adj_raw noun_tier noun_raw : PyStr) (r : Tape) : Attempt :=
  let adj := apply_case adj_raw case_mode
  let noun := apply_case noun_raw case_mode
  let final_name := join_name adj noun separator
  if avoid_duplicates ∧ pyLower final_name ∈ st.used_names then .retry r
  else .finish (some (final_name, adj_tier, noun_tier)) r

/-- One iteration of the retry loop (lines 133-155).  The only possible
exception is `adj_raw[0]` on an empty adjective in alliteration mode. -/
def attemptOnce (st : Store) (enabled : List (PyStr × PyStr))
    (separator case_mode : PyStr) (alliteration avoid_duplicates : Bool)
    (r : Tape) : Except Unit Attempt :=
  match pick_word_from_tiers st.adjectives st.tier_weights r with
  | none => .ok (.finish none r)
  | some ((adj_tier, adj_raw), r1) =>
    if alliteration then
      match adj_raw with
      | [] => .error ()
      | c :: _ =>
        let candidates := nounsByLetter enabled c.toLower
        if candidates = [] then .ok (.retry r1)
        else
          let pr := uniformChoice candidates ([], []) (Tape.draw r1).1
          .ok (finishPair st separator case_mode avoid_duplicates
                adj_tier adj_raw pr.1 pr.2 (Tape.draw r1).2)
    else
      match pick_word_from_tiers st.nouns st.tier_weights r1 with
      | none => .ok (.finish none r1)
      | some ((noun_tier, noun_raw), r2) =>
        .ok (finishPair st separator case_mode avoid_duplicates
              adj_tier adj_raw noun_tier noun_raw r2)

/-- The bounded retry loop, fuel counting the remaining attempts. -/
def genLoop (st : Store) (enabled : List (PyStr × PyStr))
    (separator case_mode : PyStr) (alliteration avoid_duplicates : Bool) :
    Nat → Tape → Except Unit (Option (PyStr × PyStr × PyStr) × Store × Tape)
  | 0, r => .ok (none, st, r)
  | fuel + 1, r =>
    match attemptOnce st enabled separator case_mode alliteration avoid_duplicates r with
    | .error e => .error e
    | .ok (.finish res r1) => .ok (res, st, r1)
    | .ok (.retry r1) =>
      genLoop st enabled separator case_mode alliteration avoid_duplicates fuel r1

def generate_one_name (st : Store) (separator case_mode : PyStr)
    (alliteration avoid_duplicates : Bool) (r : Tape) :
    Except Unit (Option (PyStr × PyStr × PyStr) × Store × Tape) :=
  genLoop st (enabledNouns st.nouns st.tier_weights)
    separator case_mode alliteration avoid_duplicates 250 r

/-! ## Specification-side predicates (used to state the display-split
claim) -/

/-- Python's substring test `pat in s`. -/
def occursIn (pat s : PyStr) : Prop :=
  ∃ a b, s = a ++ pat ++ b

/-- `lr` splits `s` once at the first (leftmost) occurrence of `pat`. -/
def splitsAtFirst (pat s : PyStr) (lr : PyStr × PyStr) : Prop :=
  s = lr.1 ++ pat ++ lr.2 ∧
    ∀ a b, s = a ++ pat ++ b → lr.1.length ≤ a.length

/-- Concrete store used to instantiate hypothesis-bearing theorems. -/
def demoStore : Store where
  adjectives := [("Common".data, ["big".data, "cool".data])]
  nouns := [("Common".data, ["bear".data, "cat".data])]
  tier_weights := [("Common".data, 5)]
  used_names := []

/-- A store whose single enabled tier contains an empty-string adjective,
with every formatted name of the enabled pools already used. -/
def emptyAdjStore : Store where
  adjectives := [("T".data, [[]])]
  nouns := [("T".data, ["x".data])]
  tier_weights := [("T".data, 1)]
  used_names := [" x".data]

/-- The demo pools with every formatted (lowercased, space-joined) name
already in the session's used set. -/
def usedStore : Store where
  adjectives := [("Common".data, ["big".data, "cool".data])]
  nouns := [("Common".data, ["bear".data, "cat".data])]
  tier_weights := [("Common".data, 5)]
  used_names :=
    ["big bear".data, "big cat".data, "cool bear".data, "cool cat".data]

/-! ## Helper lemmas -/

theorem uniformChoice_mem (seq : List α) (dflt : α) (d : Nat) (h : seq ≠ []) :
    uniformChoice seq dflt d ∈ seq := by
  have hlen : 0 < seq.length := List.length_pos.mpr h
  have hm : d % seq.length < seq.length := Nat.mod_lt _ hlen
  have := List.getElem_mem hm
  simp only [uniformChoice, List.getD_eq_getElem?_getD, List.getElem?_eq_getElem hm,
    Option.getD_some]
  exact this

theorem weightedChoiceGo_mem (pop : List (PyStr × Nat)) (k : Nat)
    (hk : k < (pop.map Prod.snd).sum) :
    ∃ p ∈ pop, weightedChoiceGo pop k = p.1 := by
  induction pop generalizing k with
  | nil => simp at hk
  | cons hd tl ih =>
    rcases hd with ⟨t, w⟩
    by_cases hlt : k < w
    · exact ⟨(t, w), by simp, by simp [weightedChoiceGo, hlt]⟩
    · have hk' : k - w < (tl.map Prod.snd).sum := by
        simp only [List.map_cons, List.sum_cons] at hk
        omega
      obtain ⟨p, hp, hpick⟩ := ih (k - w) hk'
      refine ⟨p, List.mem_cons_of_mem _ hp, ?_⟩
      rw [weightedChoiceGo, if_neg hlt]
      exact hpick

theorem weightedChoice_mem (pop : List (PyStr × Nat)) (d : Nat)
    (hne : pop ≠ []) (hpos : ∀ p ∈ pop, 0 < p.2) :
    ∃ p ∈ pop, weightedChoice pop d = p.1 := by
  obtain ⟨p0, hp0⟩ := List.exists_mem_of_ne_nil pop hne
  have hsum : 0 < (pop.map Prod.snd).sum := by
    have : p0.2 ≤ (pop.map Prod.snd).sum :=
      List.single_le_sum (by intro x _; exact Nat.zero_le x) _
        (List.mem_map_of_mem Prod.snd hp0)
    have := hpos p0 hp0
    omega
  exact weightedChoiceGo_mem pop _ (Nat.mod_lt _ hsum)

/-- If `pick_word_from_tiers` returns `(tier, word)`, then `tier` appears in
the weight dict with a strictly positive weight and `word` belongs to that
tier's pool. -/
theorem pick_mem (lists : Dict (List PyStr)) (tw : Dict Nat) (r : Tape)
    (t w : PyStr) (r' : Tape)
    (h : pick_word_from_tiers lists tw r = some ((t, w), r')) :
    ∃ p ∈ tw, p.1 = t ∧ 0 < p.2 ∧ dictGetD lists t [] ≠ [] ∧
      w ∈ dictGetD lists t [] := by
  unfold pick_word_from_tiers at h
  set available := tw.filter (fun p => 0 < p.2 && !(dictGetD lists p.1 []).isEmpty)
    with havail
  by_cases hne : available = []
  · simp [hne] at h
  · rw [if_neg hne] at h
    simp only [Option.some.injEq, Prod.mk.injEq] at h
    obtain ⟨⟨ht, hw⟩, -⟩ := h
    have hpos : ∀ p ∈ available, 0 < p.2 := by
      intro p hp
      have := List.of_mem_filter hp
      simp only [Bool.and_eq_true, decide_eq_true_eq] at this
      exact this.1
    obtain ⟨p, hp, hpick⟩ := weightedChoice_mem available ((Tape.draw r).1) hne hpos
    have hmem : p ∈ tw := List.mem_of_mem_filter hp
    have hcond := List.of_mem_filter hp
    simp only [Bool.and_eq_true, decide_eq_true_eq, Bool.not_eq_true',
      List.isEmpty_eq_false] at hcond
    obtain ⟨hwt, hpool⟩ := hcond
    have ht' : p.1 = t := hpick.symm.trans ht
    have hpool' : dictGetD lists t [] ≠ [] := by rw [← ht']; exact hpool
    refine ⟨p, hmem, ht', hwt, hpool', ?_⟩
    rw [← hw, hpick.trans ht']
    exact uniformChoice_mem _ _ _ hpool'

theorem pyStrip_eq_rdrop (s : PyStr) :
    pyStrip s = List.rdropWhile isPySpace (s.dropWhile isPySpace) := rfl

theorem pyStrip_sublist (s : PyStr) : List.Sublist (pyStrip s) s := by
  rw [pyStrip_eq_rdrop]
  exact ((List.rdropWhile_prefix _ _).sublist).trans (List.dropWhile_sublist _)

theorem pyStrip_pyStrip (s : PyStr) : pyStrip (pyStrip s) = pyStrip s := by
  have hdropt : (s.dropWhile isPySpace).dropWhile isPySpace =
      s.dropWhile isPySpace := List.dropWhile_idempotent _ _
  have hdropu : (pyStrip s).dropWhile isPySpace = pyStrip s := by
    rcases hc : pyStrip s with _ | ⟨c, u'⟩
    · rfl
    · obtain ⟨v, hv⟩ := List.rdropWhile_prefix isPySpace (s.dropWhile isPySpace)
      rw [← pyStrip_eq_rdrop, hc] at hv
      have hpc : isPySpace c = false := by
        rcases ht' : s.dropWhile isPySpace with _ | ⟨c', t'⟩
        · rw [ht'] at hv; simp at hv
        · rw [ht'] at hv
          have hcc : c = c' := by
            have := congrArg (fun l => l.head?) hv
            simpa using this
          subst hcc
          rw [ht'] at hdropt
          cases hpcb : isPySpace c
          · rfl
          · rw [List.dropWhile_cons_of_pos hpcb] at hdropt
            have hlen := congrArg List.length hdropt
            have hle := (List.dropWhile_sublist (l := t') isPySpace).length_le
            simp at hlen
            omega
      rw [List.dropWhile_cons_of_neg (by simp [hpc])]
  calc pyStrip (pyStrip s)
      = List.rdropWhile isPySpace ((pyStrip s).dropWhile isPySpace) := rfl
    _ = List.rdropWhile isPySpace (pyStrip s) := by rw [hdropu]
    _ = List.rdropWhile isPySpace
          (List.rdropWhile isPySpace (s.dropWhile isPySpace)) := rfl
    _ = List.rdropWhile isPySpace (s.dropWhile isPySpace) :=
          List.rdropWhile_idempotent _ _
    _ = pyStrip s := rfl

theorem cleanWord_some {x w : PyStr} (h : cleanWord x = some w) :
    w ≠ [] ∧ (∀ c ∈ w, isAllowed c = true) ∧ pyStrip w = w := by
  unfold cleanWord at h
  by_cases h1 : pyStrip x = []
  · simp [h1] at h
  · rw [if_neg h1] at h
    by_cases h2 : pyStrip ((pyStrip x).filter isAllowed) = []
    · rw [if_pos h2] at h; exact absurd h (by simp)
    · rw [if_neg h2] at h
      have hw : w = pyStrip ((pyStrip x).filter isAllowed) := by
        simpa using h.symm
      subst hw
      refine ⟨h2, ?_, pyStrip_pyStrip _⟩
      intro c hc
      have : c ∈ (pyStrip x).filter isAllowed :=
        (pyStrip_sublist _).subset hc
      exact List.of_mem_filter this

theorem cleanWord_fixed {w : PyStr} (hne : w ≠ [])
    (hall : ∀ c ∈ w, isAllowed c = true) (hstrip : pyStrip w = w) :
    cleanWord w = some w := by
  unfold cleanWord
  rw [hstrip, if_neg hne, List.filter_eq_self.mpr hall, hstrip, if_neg hne]

theorem cleanedWords_forall (text : PyStr) :
    ∀ w ∈ cleanedWords text,
      w ≠ [] ∧ (∀ c ∈ w, isAllowed c = true) ∧ pyStrip w = w := by
  intro w hw
  obtain ⟨x, -, hx⟩ := List.mem_filterMap.mp hw
  exact cleanWord_some hx

theorem dedupeBy_sublist (l : List PyStr) :
    ∀ seen, List.Sublist (dedupeBy seen l) l := by
  induction l with
  | nil => intro seen; simp [dedupeBy]
  | cons w rest ih =>
    intro seen
    by_cases h : pyLower w ∈ seen
    · simp only [dedupeBy, if_pos h]
      exact (ih seen).cons w
    · simp only [dedupeBy, if_neg h]
      exact (ih _).cons₂ w

theorem dedupeBy_lower_nodup (l : List PyStr) :
    ∀ seen, ((dedupeBy seen l).map pyLower).Nodup ∧
      ∀ w ∈ dedupeBy seen l, pyLower w ∉ seen := by
  induction l with
  | nil => intro seen; simp [dedupeBy]
  | cons w rest ih =>
    intro seen
    by_cases h : pyLower w ∈ seen
    · simpa only [dedupeBy, if_pos h] using ih seen
    · simp only [dedupeBy, if_neg h]
      obtain ⟨hnd, hnotin⟩ := ih (pyLower w :: seen)
      refine ⟨?_, ?_⟩
      · simp only [List.map_cons, List.nodup_cons]
        refine ⟨?_, hnd⟩
        intro hmem
        obtain ⟨v, hv, hveq⟩ := List.mem_map.mp hmem
        exact (hnotin v hv) (by rw [hveq]; exact List.mem_cons_self _ _)
      · intro v hv
        rcases List.mem_cons.mp hv with rfl | hv'
        · exact h
        · intro hvs
          exact (hnotin v hv') (List.mem_cons_of_mem _ hvs)

theorem dedupeBy_eq_self (l : List PyStr) :
    ∀ seen, (∀ w ∈ l, pyLower w ∉ seen) → (l.map pyLower).Nodup →
      dedupeBy seen l = l := by
  induction l with
  | nil => intro seen _ _; rfl
  | cons w rest ih =>
    intro seen hseen hnd
    have hw : pyLower w ∉ seen := hseen w (List.mem_cons_self _ _)
    simp only [dedupeBy, if_neg hw]
    congr 1
    apply ih
    · intro v hv
      simp only [List.mem_cons, not_or]
      constructor
      · intro hvw
        simp only [List.map_cons, List.nodup_cons] at hnd
        exact hnd.1 (hvw ▸ List.mem_map_of_mem pyLower hv)
      · exact hseen v (List.mem_cons_of_mem _ hv)
    · simp only [List.map_cons, List.nodup_cons] at hnd
      exact hnd.2

theorem dedupeBy_first_occurrence (l : List PyStr) :
    ∀ seen w, w ∈ l → pyLower w ∉ seen →
      ∃ v, l.find? (fun x => pyLower x == pyLower w) = some v ∧
        v ∈ dedupeBy seen l ∧ pyLower v = pyLower w := by
  induction l with
  | nil => intro seen w hw; simp at hw
  | cons u rest ih =>
    intro seen w hw hws
    by_cases heq : pyLower u = pyLower w
    · refine ⟨u, ?_, ?_, heq⟩
      · rw [List.find?_cons_of_pos _ (by simp [heq])]
      · have hu : pyLower u ∉ seen := heq ▸ hws
        simp only [dedupeBy, if_neg hu]
        exact List.mem_cons_self _ _
    · have hw' : w ∈ rest := by
        rcases List.mem_cons.mp hw with rfl | h
        · exact absurd rfl heq
        · exact h
      by_cases hu : pyLower u ∈ seen
      · obtain ⟨v, hfind, hmem, hveq⟩ := ih seen w hw' hws
        refine ⟨v, ?_, ?_, hveq⟩
        · rw [List.find?_cons_of_neg _ (by simp [heq])]
          exact hfind
        · simp only [dedupeBy, if_pos hu]
          exact hmem
      · obtain ⟨v, hfind, hmem, hveq⟩ := ih (pyLower u :: seen) w hw'
          (by simp only [List.mem_cons, not_or]; exact ⟨fun h => heq h.symm, hws⟩)
        refine ⟨v, ?_, ?_, hveq⟩
        · rw [List.find?_cons_of_neg _ (by simp [heq])]
          exact hfind
        · simp only [dedupeBy, if_neg hu]
          exact List.mem_cons_of_mem _ hmem

theorem isAllowed_not_delim {c : Char} (h : isAllowed c = true) :
    (c = '\n' || c = ',') = false := by
  by_cases h1 : c = '\n'
  · subst h1; exact absurd h (by decide)
  · by_cases h2 : c = ','
    · subst h2; exact absurd h (by decide)
    · simp [h1, h2]

theorem splitOnP_intercalate (p : Char → Bool) (d : Char) (hd : p d = true) :
    ∀ ws : List PyStr, ws ≠ [] → (∀ w ∈ ws, ∀ c ∈ w, p c = false) →
      List.splitOnP p (List.intercalate [d] ws) = ws
  | [], h, _ => absurd rfl h
  | [w], _, hw => by
      have h1 : List.intercalate [d] [w] = w := by
        simp [List.intercalate]
      rw [h1]
      exact List.splitOnP_eq_single _ _
        (fun x hx => by simp [hw w (by simp) x hx])
  | w :: w' :: rest, _, hw => by
      have hinterc : List.intercalate [d] (w :: w' :: rest) =
          w ++ d :: List.intercalate [d] (w' :: rest) := by
        simp [List.intercalate, List.intersperse]
      rw [hinterc,
        List.splitOnP_first p w (fun x hx => by simp [hw w (by simp) x hx]) d hd
          (List.intercalate [d] (w' :: rest))]
      congr 1
      exact splitOnP_intercalate p d hd (w' :: rest) (by simp)
        (fun v hv c hc => hw v (List.mem_cons_of_mem _ hv) c hc)

theorem filterMap_cleanWord_self (l : List PyStr)
    (h : ∀ w ∈ l, cleanWord w = some w) : l.filterMap cleanWord = l := by
  induction l with
  | nil => rfl
  | cons w rest ih =>
    rw [List.filterMap_cons, h w (List.mem_cons_self _ _),
      ih (fun v hv => h v (List.mem_cons_of_mem _ hv))]

theorem occursIn_nil_iff (pat : PyStr) : occursIn pat [] ↔ pat = [] := by
  constructor
  · rintro ⟨a, b, hab⟩
    have hlen := congrArg List.length hab
    simp at hlen
    exact List.length_eq_zero.mp (by omega)
  · rintro rfl
    exact ⟨[], [], rfl⟩

theorem occursIn_cons_iff (pat : PyStr) (c : Char) (rest : PyStr)
    (hpre : ¬pat.isPrefixOf (c :: rest)) :
    occursIn pat (c :: rest) ↔ occursIn pat rest := by
  constructor
  · rintro ⟨a, b, hab⟩
    rcases a with _ | ⟨c', a'⟩
    · exfalso
      apply hpre
      rw [List.isPrefixOf_iff_prefix]
      exact ⟨b, by simpa using hab.symm⟩
    · simp only [List.cons_append, List.cons.injEq] at hab
      exact ⟨a', b, hab.2⟩
  · rintro ⟨a, b, hab⟩
    exact ⟨c :: a, b, by simp [hab]⟩

theorem splitFirstInfix_none_iff (pat s : PyStr) :
    splitFirstInfix pat s = none ↔ ¬occursIn pat s := by
  induction s with
  | nil =>
    by_cases hp : pat = []
    · subst hp
      simp [splitFirstInfix, occursIn_nil_iff]
    · simp [splitFirstInfix, hp, occursIn_nil_iff]
  | cons c rest ih =>
    by_cases hpre : pat.isPrefixOf (c :: rest)
    · rw [splitFirstInfix, if_pos hpre]
      obtain ⟨t, ht⟩ := List.isPrefixOf_iff_prefix.mp hpre
      simp only [reduceCtorEq, false_iff, not_not]
      exact ⟨[], t, by simpa using ht.symm⟩
    · rw [splitFirstInfix, if_neg hpre, occursIn_cons_iff pat c rest hpre, ← ih]
      cases h : splitFirstInfix pat rest with
      | none => simp
      | some ab => cases ab; simp

theorem splitFirstInfix_some (pat : PyStr) :
    ∀ s a b : PyStr, splitFirstInfix pat s = some (a, b) →
      splitsAtFirst pat s (a, b) := by
  intro s
  induction s with
  | nil =>
    intro a b h
    by_cases hp : pat = []
    · subst hp
      simp only [splitFirstInfix, reduceIte, Option.some.injEq, Prod.mk.injEq] at h
      obtain ⟨rfl, rfl⟩ := h
      exact ⟨rfl, fun a' b' _ => Nat.zero_le _⟩
    · simp [splitFirstInfix, hp] at h
  | cons c rest ih =>
    intro a b h
    by_cases hpre : pat.isPrefixOf (c :: rest)
    · rw [splitFirstInfix, if_pos hpre] at h
      simp only [Option.some.injEq, Prod.mk.injEq] at h
      obtain ⟨rfl, rfl⟩ := h
      obtain ⟨t, ht⟩ := List.isPrefixOf_iff_prefix.mp hpre
      constructor
      · simp only [List.nil_append]
        rw [← ht, List.drop_left]
      · intro a' b' _
        exact Nat.zero_le _
    · rw [splitFirstInfix, if_neg hpre] at h
      cases hrec : splitFirstInfix pat rest with
      | none => rw [hrec] at h; exact absurd h (by simp)
      | some ab =>
        obtain ⟨a', b'⟩ := ab
        rw [hrec] at h
        simp only [Option.some.injEq, Prod.mk.injEq] at h
        obtain ⟨ha, hb⟩ := h
        subst ha
        subst hb
        obtain ⟨hsplit, hmin⟩ := ih a' b' hrec
        constructor
        · simpa using congrArg (fun l => c :: l) hsplit
        · intro a₀ b₀ hab
          rcases a₀ with _ | ⟨c₀, a₁⟩
          · exfalso
            apply hpre
            rw [List.isPrefixOf_iff_prefix]
            exact ⟨b₀, by simpa using hab.symm⟩
          · simp only [List.cons_append, List.cons.injEq] at hab
            have := hmin a₁ b₀ hab.2
            simpa using Nat.succ_le_succ this

theorem enabledNouns_mem {nouns : Dict (List PyStr)} {tw : Dict Nat}
    {t n : PyStr} (h : (t, n) ∈ enabledNouns nouns tw) :
    ∃ p ∈ tw, p.1 = t ∧ 0 < p.2 ∧ n ∈ dictGetD nouns t [] := by
  unfold enabledNouns at h
  rw [List.mem_flatMap] at h
  obtain ⟨p, hp, hmem⟩ := h
  by_cases hw : 0 < p.2
  · rw [if_pos hw] at hmem
    obtain ⟨n', hn', heq⟩ := List.mem_map.mp hmem
    obtain ⟨h1, h2⟩ := Prod.mk.injEq .. ▸ heq
    exact ⟨p, hp, h1, hw, h1 ▸ h2 ▸ hn'⟩
  · rw [if_neg hw] at hmem
    simp at hmem

theorem nounsByLetter_mem {enabled : List (PyStr × PyStr)} {letter : Char}
    {t n : PyStr} (h : (t, n) ∈ nounsByLetter enabled letter) :
    (t, n) ∈ enabled ∧ ∃ c rest, n = c :: rest ∧ c.toLower = letter := by
  have h1 := List.mem_of_mem_filter h
  have h2 := List.of_mem_filter h
  refine ⟨h1, ?_⟩
  rcases n with _ | ⟨c, rest⟩
  · simp at h2
  · exact ⟨c, rest, rfl, by simpa using h2⟩

theorem genLoop_store (st : Store) (enabled : List (PyStr × PyStr))
    (sep cm : PyStr) (allit avoid : Bool) :
    ∀ fuel r res st' r',
      genLoop st enabled sep cm allit avoid fuel r = .ok (res, st', r') →
      st' = st := by
  intro fuel
  induction fuel with
  | zero =>
    intro r res st' r' h
    simp only [genLoop, Except.ok.injEq, Prod.mk.injEq] at h
    exact h.2.1.symm
  | succ n ih =>
    intro r res st' r' h
    rw [genLoop] at h
    cases hatt : attemptOnce st enabled sep cm allit avoid r with
    | error e => rw [hatt] at h; exact absurd h (by simp)
    | ok a =>
      rw [hatt] at h
      cases a with
      | retry r1 => exact ih r1 res st' r' h
      | finish res1 r1 =>
        simp only [Except.ok.injEq, Prod.mk.injEq] at h
        exact h.2.1.symm

/-- If the adjective pick fails, one attempt returns `None` at once. -/
theorem attemptOnce_adj_none (st : Store) (enabled : List (PyStr × PyStr))
    (sep cm : PyStr) (allit avoid : Bool) (r : Tape)
    (h : pick_word_from_tiers st.adjectives st.tier_weights r = none) :
    attemptOnce st enabled sep cm allit avoid r = .ok (.finish none r) := by
  unfold attemptOnce
  rw [h]

/-- In non-alliteration mode, if the noun pick fails after a successful
adjective pick, one attempt returns `None` at once. -/
theorem attemptOnce_noun_none (st : Store) (enabled : List (PyStr × PyStr))
    (sep cm : PyStr) (avoid : Bool) (r : Tape) (ta araw : PyStr) (r1 : Tape)
    (hadj : pick_word_from_tiers st.adjectives st.tier_weights r =
      some ((ta, araw), r1))
    (hnoun : pick_word_from_tiers st.nouns st.tier_weights r1 = none) :
    attemptOnce st enabled sep cm false avoid r = .ok (.finish none r1) := by
  unfold attemptOnce
  rw [hadj]
  simp only [Bool.false_eq_true, if_false]
  rw [hnoun]

theorem pick_eq_none_iff (lists : Dict (List PyStr)) (tw : Dict Nat)
    (r : Tape) :
    pick_word_from_tiers lists tw r = none ↔
      ∀ p ∈ tw, ¬(0 < p.2 ∧ dictGetD lists p.1 [] ≠ []) := by
  unfold pick_word_from_tiers
  set available := tw.filter (fun p => 0 < p.2 && !(dictGetD lists p.1 []).isEmpty)
    with havail
  by_cases hne : available = []
  · rw [if_pos hne]
    refine iff_of_true rfl ?_
    intro p hp hcontra
    have : p ∈ available := by
      rw [havail]
      refine List.mem_filter.mpr ⟨hp, ?_⟩
      simp only [Bool.and_eq_true, decide_eq_true_eq, Bool.not_eq_true',
        List.isEmpty_eq_false]
      exact hcontra
    simp [hne] at this
  · rw [if_neg hne]
    refine iff_of_false (by simp) ?_
    intro hall
    obtain ⟨p, hp⟩ := List.exists_mem_of_ne_nil available hne
    have hcond := List.of_mem_filter hp
    simp only [Bool.and_eq_true, decide_eq_true_eq, Bool.not_eq_true',
      List.isEmpty_eq_false] at hcond
    exact hall p (List.mem_of_mem_filter hp) (by tauto)

/-- One alliteration-mode attempt after picking a non-empty adjective:
look up the first-letter index, retry if empty, otherwise finish the pair
with a uniformly chosen candidate. -/
theorem attemptOnce_allit_cons (st : Store) (enabled : List (PyStr × PyStr))
    (sep cm : PyStr) (avoid : Bool) (r : Tape) (ta : PyStr) (c : Char)
    (a' : PyStr) (ra : Tape)
    (hpick : pick_word_from_tiers st.adjectives st.tier_weights r =
      some ((ta, c :: a'), ra)) :
    attemptOnce st enabled sep cm true avoid r =
      (if nounsByLetter enabled c.toLower = [] then .ok (.retry ra)
       else
         .ok (finishPair st sep cm avoid ta (c :: a')
           (uniformChoice (nounsByLetter enabled c.toLower) ([], [])
             ((Tape.draw ra).1)).1
           (uniformChoice (nounsByLetter enabled c.toLower) ([], [])
             ((Tape.draw ra).1)).2
           ((Tape.draw ra).2))) := by
  unfold attemptOnce
  rw [hpick]
  rfl

/-- One alliteration-mode attempt after picking an empty-string adjective
raises (the model of the `adj_raw[0]` `IndexError`). -/
theorem attemptOnce_allit_nil (st : Store) (enabled : List (PyStr × PyStr))
    (sep cm : PyStr) (avoid : Bool) (r : Tape) (ta : PyStr) (ra : Tape)
    (hpick : pick_word_from_tiers st.adjectives st.tier_weights r =
      some ((ta, []), ra)) :
    attemptOnce st enabled sep cm true avoid r = .error () := by
  unfold attemptOnce
  rw [hpick]
  rfl

/-- One non-alliteration-mode attempt after both picks succeed finishes
the pair. -/
theorem attemptOnce_noallit_some (st : Store) (enabled : List (PyStr × PyStr))
    (sep cm : PyStr) (avoid : Bool) (r : Tape) (ta araw : PyStr) (ra : Tape)
    (tn nraw : PyStr) (r2 : Tape)
    (hpick : pick_word_from_tiers st.adjectives st.tier_weights r =
      some ((ta, araw), ra))
    (hnoun : pick_word_from_tiers st.nouns st.tier_weights ra =
      some ((tn, nraw), r2)) :
    attemptOnce st enabled sep cm false avoid r =
      .ok (finishPair st sep cm avoid ta araw tn nraw r2) := by
  unfold attemptOnce
  rw [hpick]
  simp only [Bool.false_eq_true, if_false]
  rw [hnoun]

/-- `finishPair` unfolded: duplicate names retry, fresh names finish. -/
theorem finishPair_eq (st : Store) (sep cm : PyStr) (avoid : Bool)
    (ta araw tn nraw : PyStr) (r : Tape) :
    finishPair st sep cm avoid ta araw tn nraw r =
      if avoid = true ∧
          pyLower (join_name (apply_case araw cm) (apply_case nraw cm) sep) ∈
            st.used_names
      then .retry r
      else .finish
        (some (join_name (apply_case araw cm) (apply_case nraw cm) sep,
          ta, tn)) r := rfl

/-- Anatomy of a successful alliteration-mode attempt: the adjective is a
non-empty word picked from an enabled tier, the noun is a non-empty word
from the first-letter index whose lowercased first letter matches the
adjective's, and the returned name is the formatted join of the two. -/
theorem attemptOnce_allit_finish_some (st : Store)
    (enabled : List (PyStr × PyStr)) (sep cm : PyStr) (avoid : Bool)
    (r : Tape) (name at_ nt : PyStr) (r1 : Tape)
    (h : attemptOnce st enabled sep cm true avoid r =
      .ok (.finish (some (name, at_, nt)) r1)) :
    ∃ (ca : Char) (a' : PyStr) (cn : Char) (n' : PyStr),
      ca.toLower = cn.toLower ∧
      name = join_name (apply_case (ca :: a') cm) (apply_case (cn :: n') cm)
        sep ∧
      (nt, cn :: n') ∈ enabled ∧
      ∃ p ∈ st.tier_weights, p.1 = at_ ∧ 0 < p.2 ∧
        (ca :: a') ∈ dictGetD st.adjectives at_ [] := by
  cases hpick : pick_word_from_tiers st.adjectives st.tier_weights r with
  | none =>
    rw [attemptOnce_adj_none st enabled sep cm true avoid r hpick] at h
    simp at h
  | some pr =>
    obtain ⟨⟨ta, araw⟩, ra⟩ := pr
    rcases araw with _ | ⟨c, a'⟩
    · rw [attemptOnce_allit_nil st enabled sep cm avoid r ta ra hpick] at h
      exact absurd h (by simp)
    · rw [attemptOnce_allit_cons st enabled sep cm avoid r ta c a' ra hpick]
        at h
      by_cases hcand : nounsByLetter enabled c.toLower = []
      · rw [if_pos hcand] at h
        simp at h
      · rw [if_neg hcand] at h
        have hmem : uniformChoice (nounsByLetter enabled c.toLower) ([], [])
            ((Tape.draw ra).1) ∈ nounsByLetter enabled c.toLower :=
          uniformChoice_mem _ _ _ hcand
        set pr2 := uniformChoice (nounsByLetter enabled c.toLower) ([], [])
          ((Tape.draw ra).1) with hpr2
        obtain ⟨henb, cn, n', hn, hlet⟩ :=
          nounsByLetter_mem (t := pr2.1) (n := pr2.2) (by simpa using hmem)
        rw [finishPair_eq] at h
        by_cases hdup : avoid = true ∧
            pyLower (join_name (apply_case (c :: a') cm)
              (apply_case pr2.2 cm) sep) ∈ st.used_names
        · rw [if_pos hdup] at h
          simp at h
        · rw [if_neg hdup] at h
          have hinj := h
          simp only [Except.ok.injEq, Attempt.finish.injEq,
            Option.some.injEq, Prod.mk.injEq] at hinj
          obtain ⟨⟨hname, hat, hnt⟩, -⟩ := hinj
          obtain ⟨p, hp, hpfst, hppos, -, hpmem⟩ :=
            pick_mem st.adjectives st.tier_weights r ta (c :: a') ra hpick
          refine ⟨c, a', cn, n', hlet.symm, ?_, ?_, p, hp, ?_, hppos, ?_⟩
          · rw [← hname, hn]
          · rw [← hnt, ← hn]
            exact henb
          · rw [hpfst, hat]
          · rw [← hat]
            exact hpmem

theorem genLoop_allit_some (st : Store) (enabled : List (PyStr × PyStr))
    (sep cm : PyStr) (avoid : Bool) :
    ∀ fuel r name at_ nt st' r',
      genLoop st enabled sep cm true avoid fuel r =
        .ok (some (name, at_, nt), st', r') →
      ∃ (ca : Char) (a' : PyStr) (cn : Char) (n' : PyStr),
        ca.toLower = cn.toLower ∧
        name = join_name (apply_case (ca :: a') cm)
          (apply_case (cn :: n') cm) sep ∧
        (nt, cn :: n') ∈ enabled ∧
        ∃ p ∈ st.tier_weights, p.1 = at_ ∧ 0 < p.2 ∧
          (ca :: a') ∈ dictGetD st.adjectives at_ [] := by
  intro fuel
  induction fuel with
  | zero =>
    intro r name at_ nt st' r' h
    simp [genLoop] at h
  | succ k ih =>
    intro r name at_ nt st' r' h
    rw [genLoop] at h
    cases hatt : attemptOnce st enabled sep cm true avoid r with
    | error e =>
      rw [hatt] at h
      exact absurd h (by simp)
    | ok a =>
      rw [hatt] at h
      cases a with
      | retry r1 => exact ih r1 name at_ nt st' r' h
      | finish res r1 =>
        simp only [Except.ok.injEq, Prod.mk.injEq] at h
        obtain ⟨hres, -, -⟩ := h
        rw [hres] at hatt
        exact attemptOnce_allit_finish_some st enabled sep cm avoid r
          name at_ nt r1 hatt

theorem attemptOnce_no_error (st : Store) (enabled : List (PyStr × PyStr))
    (sep cm : PyStr) (allit avoid : Bool) (r : Tape)
    (hne : ∀ p ∈ st.tier_weights, 0 < p.2 →
      ∀ a ∈ dictGetD st.adjectives p.1 [], a ≠ []) :
    ∃ a, attemptOnce st enabled sep cm allit avoid r = .ok a := by
  cases hpick : pick_word_from_tiers st.adjectives st.tier_weights r with
  | none =>
    exact ⟨_, attemptOnce_adj_none st enabled sep cm allit avoid r hpick⟩
  | some pr =>
    obtain ⟨⟨ta, araw⟩, ra⟩ := pr
    cases allit with
    | false =>
      cases hnoun : pick_word_from_tiers st.nouns st.tier_weights ra with
      | none =>
        exact ⟨_, attemptOnce_noun_none st enabled sep cm avoid r ta araw ra
          hpick hnoun⟩
      | some pr2 =>
        obtain ⟨⟨tn, nraw⟩, r2⟩ := pr2
        exact ⟨_, attemptOnce_noallit_some st enabled sep cm avoid r ta araw
          ra tn nraw r2 hpick hnoun⟩
    | true =>
      obtain ⟨p, hp, hpfst, hppos, -, hpmem⟩ :=
        pick_mem st.adjectives st.tier_weights r ta araw ra hpick
      have haraw : araw ∈ dictGetD st.adjectives p.1 [] := by
        rw [hpfst]; exact hpmem
      have hne' : araw ≠ [] := hne p hp hppos araw haraw
      rcases araw with _ | ⟨c, a'⟩
      · exact absurd rfl hne'
      · rw [attemptOnce_allit_cons st enabled sep cm avoid r ta c a' ra hpick]
        by_cases hcand : nounsByLetter enabled c.toLower = []
        · exact ⟨_, by rw [if_pos hcand]⟩
        · exact ⟨_, by rw [if_neg hcand]⟩

theorem genLoop_no_error (st : Store) (enabled : List (PyStr × PyStr))
    (sep cm : PyStr) (allit avoid : Bool)
    (hne : ∀ p ∈ st.tier_weights, 0 < p.2 →
      ∀ a ∈ dictGetD st.adjectives p.1 [], a ≠ []) :
    ∀ fuel r, ∃ out, genLoop st enabled sep cm allit avoid fuel r = .ok out := by
  intro fuel
  induction fuel with
  | zero => intro r; exact ⟨_, rfl⟩
  | succ k ih =>
    intro r
    obtain ⟨a, ha⟩ := attemptOnce_no_error st enabled sep cm allit avoid r hne
    cases a with
    | retry r1 =>
      obtain ⟨out, hout⟩ := ih r1
      exact ⟨out, by rw [genLoop, ha]; exact hout⟩
    | finish res r1 => exact ⟨(res, st, r1), by rw [genLoop, ha]⟩

/-- When every formatted name of the enabled pools is already used (and,
in alliteration mode, every enabled adjective is non-empty), one attempt
with duplicate avoidance either returns `None` at once or is discarded. -/
theorem attemptOnce_all_used (st : Store) (sep cm : PyStr) (allit : Bool)
    (r : Tape)
    (hcover : ∀ pa ∈ st.tier_weights, 0 < pa.2 →
      ∀ a ∈ dictGetD st.adjectives pa.1 [],
      ∀ pn ∈ st.tier_weights, 0 < pn.2 →
      ∀ n ∈ dictGetD st.nouns pn.1 [],
        pyLower (join_name (apply_case a cm) (apply_case n cm) sep) ∈
          st.used_names)
    (hne : allit = true → ∀ p ∈ st.tier_weights, 0 < p.2 →
      ∀ a ∈ dictGetD st.adjectives p.1 [], a ≠ []) :
    (∃ r1, attemptOnce st (enabledNouns st.nouns st.tier_weights) sep cm
        allit true r = .ok (.finish none r1)) ∨
    (∃ r1, attemptOnce st (enabledNouns st.nouns st.tier_weights) sep cm
        allit true r = .ok (.retry r1)) := by
  cases hpick : pick_word_from_tiers st.adjectives st.tier_weights r with
  | none =>
    exact Or.inl ⟨r, attemptOnce_adj_none st _ sep cm allit true r hpick⟩
  | some pr =>
    obtain ⟨⟨ta, araw⟩, ra⟩ := pr
    obtain ⟨p, hp, hpfst, hppos, -, hpmem⟩ :=
      pick_mem st.adjectives st.tier_weights r ta araw ra hpick
    have hamem : araw ∈ dictGetD st.adjectives p.1 [] := by
      rw [hpfst]; exact hpmem
    cases allit with
    | false =>
      cases hnoun : pick_word_from_tiers st.nouns st.tier_weights ra with
      | none =>
        exact Or.inl ⟨ra,
          attemptOnce_noun_none st _ sep cm true r ta araw ra hpick hnoun⟩
      | some pr2 =>
        obtain ⟨⟨tn, nraw⟩, r2⟩ := pr2
        obtain ⟨q, hq, hqfst, hqpos, -, hqmem⟩ :=
          pick_mem st.nouns st.tier_weights ra tn nraw r2 hnoun
        have hnmem : nraw ∈ dictGetD st.nouns q.1 [] := by
          rw [hqfst]; exact hqmem
        have hdup : pyLower (join_name (apply_case araw cm)
            (apply_case nraw cm) sep) ∈ st.used_names :=
          hcover p hp hppos araw hamem q hq hqpos nraw hnmem
        refine Or.inr ⟨r2, ?_⟩
        rw [attemptOnce_noallit_some st _ sep cm true r ta araw ra tn nraw r2
          hpick hnoun, finishPair_eq, if_pos ⟨rfl, hdup⟩]
    | true =>
      have hne' : araw ≠ [] := hne rfl p hp hppos araw hamem
      rcases araw with _ | ⟨c, a'⟩
      · exact absurd rfl hne'
      · by_cases hcand : nounsByLetter (enabledNouns st.nouns st.tier_weights)
            c.toLower = []
        · refine Or.inr ⟨ra, ?_⟩
          rw [attemptOnce_allit_cons st _ sep cm true r ta c a' ra hpick,
            if_pos hcand]
        · have hmem : uniformChoice
              (nounsByLetter (enabledNouns st.nouns st.tier_weights) c.toLower)
              ([], []) ((Tape.draw ra).1) ∈
              nounsByLetter (enabledNouns st.nouns st.tier_weights) c.toLower :=
            uniformChoice_mem _ _ _ hcand
          set pr2 := uniformChoice
            (nounsByLetter (enabledNouns st.nouns st.tier_weights) c.toLower)
            ([], []) ((Tape.draw ra).1) with hpr2
          obtain ⟨henb, cn, n', hn, hlet⟩ :=
            nounsByLetter_mem (t := pr2.1) (n := pr2.2) (by simpa using hmem)
          obtain ⟨q, hq, hqfst, hqpos, hnmem⟩ := enabledNouns_mem henb
          have hnmem' : pr2.2 ∈ dictGetD st.nouns q.1 [] := by
            rw [hqfst]; exact hnmem
          have hdup : pyLower (join_name (apply_case (c :: a') cm)
              (apply_case pr2.2 cm) sep) ∈ st.used_names :=
            hcover p hp hppos (c :: a') hamem q hq hqpos pr2.2 hnmem'
          refine Or.inr ⟨(Tape.draw ra).2, ?_⟩
          rw [attemptOnce_allit_cons st _ sep cm true r ta c a' ra hpick,
            if_neg hcand, finishPair_eq, if_pos ⟨rfl, hdup⟩]

theorem genLoop_all_used (st : Store) (sep cm : PyStr) (allit : Bool)
    (hcover : ∀ pa ∈ st.tier_weights, 0 < pa.2 →
      ∀ a ∈ dictGetD st.adjectives pa.1 [],
      ∀ pn ∈ st.tier_weights, 0 < pn.2 →
      ∀ n ∈ dictGetD st.nouns pn.1 [],
        pyLower (join_name (apply_case a cm) (apply_case n cm) sep) ∈
          st.used_names)
    (hne : allit = true → ∀ p ∈ st.tier_weights, 0 < p.2 →
      ∀ a ∈ dictGetD st.adjectives p.1 [], a ≠ []) :
    ∀ fuel r, ∃ r', genLoop st (enabledNouns st.nouns st.tier_weights) sep cm
      allit true fuel r = .ok (none, st, r') := by
  intro fuel
  induction fuel with
  | zero => intro r; exact ⟨r, rfl⟩
  | succ k ih =>
    intro r
    rcases attemptOnce_all_used st sep cm allit r hcover hne with
      ⟨r1, h⟩ | ⟨r1, h⟩
    · exact ⟨r1, by rw [genLoop, h]⟩
    · obtain ⟨r', hr⟩ := ih r1
      exact ⟨r', by rw [genLoop, h]; exact hr⟩

/-! ## Claims -/

/-- C1: `pick_word_from_tiers` returns `none` exactly when no tier has both
a strictly positive weight and a non-empty word list; and a tier whose
weight is 0 never supplies the returned word, for every random tape. -/
theorem pick_none_iff_and_zero_weight_excluded
    (lists : Dict (List PyStr)) (tw : Dict Nat) (r : Tape)
    (hnd : (tw.map Prod.fst).Nodup) :
    (pick_word_from_tiers lists tw r = none ↔
      ∀ p ∈ tw, ¬(0 < p.2 ∧ dictGetD lists p.1 [] ≠ [])) ∧
    (∀ T word r', (T, 0) ∈ tw →
      pick_word_from_tiers lists tw r ≠ some ((T, word), r')) := by
  constructor
  · exact pick_eq_none_iff lists tw r
  · intro T word r' hT h
    obtain ⟨p, hp, hfst, hpos, -, -⟩ := pick_mem lists tw r T word r' h
    have : p.2 = 0 := by
      have h1 : (p.1, p.2) ∈ tw := by simpa using hp
      have heq := List.inj_on_of_nodup_map hnd hT h1 (by simp [hfst])
      have := congrArg Prod.snd heq
      simpa using this.symm
    omega

/-- C5: every word produced by `normalize_words` is non-empty and drawn
from the allowed character set; the output is duplicate-free under
lowercasing; it is a subsequence of the cleaned pieces (original casing and
relative order preserved); and every cleaned piece is represented in the
output by the first cleaned piece with the same lowercase key. -/
theorem normalize_words_spec (text : PyStr) :
    (∀ w ∈ normalize_words text, w ≠ [] ∧ ∀ c ∈ w, isAllowed c = true) ∧
    ((normalize_words text).map pyLower).Nodup ∧
    List.Sublist (normalize_words text) (cleanedWords text) ∧
    (∀ w ∈ cleanedWords text, ∃ v,
      (cleanedWords text).find? (fun x => pyLower x == pyLower w) = some v ∧
      v ∈ normalize_words text ∧ pyLower v = pyLower w) := by
  refine ⟨?_, ?_, ?_, ?_⟩
  · intro w hw
    have hmem : w ∈ cleanedWords text :=
      (dedupeBy_sublist (cleanedWords text) []).subset hw
    have h := cleanedWords_forall text w hmem
    exact ⟨h.1, h.2.1⟩
  · exact (dedupeBy_lower_nodup (cleanedWords text) []).1
  · exact dedupeBy_sublist (cleanedWords text) []
  · intro w hw
    exact dedupeBy_first_occurrence (cleanedWords text) [] w hw (by simp)

/-- C6: normalization is idempotent: re-normalizing the newline-join of the
output of `normalize_words` yields exactly the same word sequence. -/
theorem normalize_words_idempotent (text : PyStr) :
    normalize_words (List.intercalate "\n".data (normalize_words text)) =
      normalize_words text := by
  set out := normalize_words text with hout
  by_cases hne : out = []
  · rw [hne]
    rfl
  · have hP : ∀ w ∈ out, w ≠ [] ∧ (∀ c ∈ w, isAllowed c = true) ∧
        pyStrip w = w := by
      intro w hw
      rw [hout] at hw
      exact cleanedWords_forall text w
        ((dedupeBy_sublist (cleanedWords text) []).subset hw)
    have hsplit : splitDelims (List.intercalate "\n".data out) = out := by
      unfold splitDelims
      have : "\n".data = ['\n'] := rfl
      rw [this]
      exact splitOnP_intercalate _ '\n' (by decide) out hne
        (fun w hw c hc => isAllowed_not_delim ((hP w hw).2.1 c hc))
    have hclean : cleanedWords (List.intercalate "\n".data out) = out := by
      rw [cleanedWords, hsplit]
      exact filterMap_cleanWord_self out
        (fun w hw => cleanWord_fixed (hP w hw).1 (hP w hw).2.1 (hP w hw).2.2)
    rw [normalize_words, hclean]
    exact dedupeBy_eq_self out [] (by simp)
      (hout ▸ (dedupeBy_lower_nodup (cleanedWords text) []).1)

/-- C7: formatting is deterministic and fail-open: the three recognized
case modes apply their transforms and any other mode string leaves the word
unchanged; the four recognized separators produce the four documented
formats and any other separator string produces the space-joined form. -/
theorem formatter_deterministic_fail_open (s a n mode sep : PyStr) :
    (apply_case s "Title Case".data = pyTitle s) ∧
    (apply_case s "UPPER".data = pyUpper s) ∧
    (apply_case s "lower".data = pyLower s) ∧
    (mode ≠ "Title Case".data → mode ≠ "UPPER".data → mode ≠ "lower".data →
      apply_case s mode = s) ∧
    (join_name a n "Space".data = a ++ " ".data ++ n) ∧
    (join_name a n "Hyphen".data = a ++ "-".data ++ n) ∧
    (join_name a n "Underscore".data = a ++ "_".data ++ n) ∧
    (join_name a n "of".data = a ++ " of ".data ++ n) ∧
    (sep ≠ "Space".data → sep ≠ "Hyphen".data → sep ≠ "Underscore".data →
      sep ≠ "of".data → join_name a n sep = a ++ " ".data ++ n) := by
  refine ⟨?_, ?_, ?_, ?_, ?_, ?_, ?_, ?_, ?_⟩
  · rw [apply_case, if_pos rfl]
  · rw [apply_case, if_neg (by decide), if_pos rfl]
  · rw [apply_case, if_neg (by decide), if_neg (by decide), if_pos rfl]
  · intro h1 h2 h3
    rw [apply_case, if_neg h1, if_neg h2, if_neg h3]
  · rw [join_name, if_pos rfl]
  · rw [join_name, if_neg (by decide), if_pos rfl]
  · rw [join_name, if_neg (by decide), if_neg (by decide), if_pos rfl]
  · rw [join_name, if_neg (by decide), if_neg (by decide), if_neg (by decide),
      if_pos rfl]
  · intro h1 h2 h3 h4
    rw [join_name, if_neg h1, if_neg h2, if_neg h3, if_neg h4]

/-- C7 witness: an unrecognized mode and separator fall back to the
unchanged word and the space-joined form. -/
theorem formatter_fail_open_witness :
    apply_case "aB".data "weird".data = "aB".data ∧
    join_name "a".data "b".data "weird".data = "a b".data := by
  have h := formatter_deterministic_fail_open "aB".data "a".data "b".data
    "weird".data "weird".data
  exact ⟨h.2.2.2.1 (by decide) (by decide) (by decide),
    h.2.2.2.2.2.2.2.2 (by decide) (by decide) (by decide) (by decide)⟩

/-- C8: `split_for_display` tries delimiters in priority order — the
literal `" of "` first, else the first `"-"`, else the first `"_"`, else
the first space — splitting once at the earliest occurrence of the chosen
delimiter; with no delimiter present the left part is the whole string and
the right part is empty. -/
theorem split_for_display_priority (s : PyStr) :
    (occursIn " of ".data s →
      splitsAtFirst " of ".data s (split_for_display s)) ∧
    (¬occursIn " of ".data s → occursIn "-".data s →
      splitsAtFirst "-".data s (split_for_display s)) ∧
    (¬occursIn " of ".data s → ¬occursIn "-".data s → occursIn "_".data s →
      splitsAtFirst "_".data s (split_for_display s)) ∧
    (¬occursIn " of ".data s → ¬occursIn "-".data s → ¬occursIn "_".data s →
      occursIn " ".data s → splitsAtFirst " ".data s (split_for_display s)) ∧
    (¬occursIn " of ".data s → ¬occursIn "-".data s → ¬occursIn "_".data s →
      ¬occursIn " ".data s → split_for_display s = (s, [])) := by
  refine ⟨?_, ?_, ?_, ?_, ?_⟩
  · intro hof
    rcases hsp : splitFirstInfix " of ".data s with _ | ⟨a, b⟩
    · exact absurd ((splitFirstInfix_none_iff _ s).mp hsp) (not_not.mpr hof)
    · have := splitFirstInfix_some " of ".data s a b hsp
      rw [split_for_display, hsp]
      exact this
  · intro hof hhy
    have h1 : splitFirstInfix " of ".data s = none :=
      (splitFirstInfix_none_iff _ s).mpr hof
    rcases hsp : splitFirstInfix "-".data s with _ | ⟨a, b⟩
    · exact absurd ((splitFirstInfix_none_iff _ s).mp hsp) (not_not.mpr hhy)
    · have := splitFirstInfix_some "-".data s a b hsp
      rw [split_for_display, h1, hsp]
      exact this
  · intro hof hhy hun
    have h1 : splitFirstInfix " of ".data s = none :=
      (splitFirstInfix_none_iff _ s).mpr hof
    have h2 : splitFirstInfix "-".data s = none :=
      (splitFirstInfix_none_iff _ s).mpr hhy
    rcases hsp : splitFirstInfix "_".data s with _ | ⟨a, b⟩
    · exact absurd ((splitFirstInfix_none_iff _ s).mp hsp) (not_not.mpr hun)
    · have := splitFirstInfix_some "_".data s a b hsp
      rw [split_for_display, h1, h2, hsp]
      exact this
  · intro hof hhy hun hsp'
    have h1 : splitFirstInfix " of ".data s = none :=
      (splitFirstInfix_none_iff _ s).mpr hof
    have h2 : splitFirstInfix "-".data s = none :=
      (splitFirstInfix_none_iff _ s).mpr hhy
    have h3 : splitFirstInfix "_".data s = none :=
      (splitFirstInfix_none_iff _ s).mpr hun
    rcases hsp : splitFirstInfix " ".data s with _ | ⟨a, b⟩
    · exact absurd ((splitFirstInfix_none_iff _ s).mp hsp) (not_not.mpr hsp')
    · have := splitFirstInfix_some " ".data s a b hsp
      rw [split_for_display, h1, h2, h3, hsp]
      exact this
  · intro hof hhy hun hsp'
    have h1 : splitFirstInfix " of ".data s = none :=
      (splitFirstInfix_none_iff _ s).mpr hof
    have h2 : splitFirstInfix "-".data s = none :=
      (splitFirstInfix_none_iff _ s).mpr hhy
    have h3 : splitFirstInfix "_".data s = none :=
      (splitFirstInfix_none_iff _ s).mpr hun
    have h4 : splitFirstInfix " ".data s = none :=
      (splitFirstInfix_none_iff _ s).mpr hsp'
    rw [split_for_display, h1, h2, h3, h4]

/-- C8 witness: in `"Aa of B-b c"` the `" of "` delimiter wins over the
hyphen and the space, splitting at its first occurrence. -/
theorem split_for_display_priority_witness :
    splitsAtFirst " of ".data "Aa of B-b c".data
      (split_for_display "Aa of B-b c".data) := by
  have h := split_for_display_priority "Aa of B-b c".data
  exact h.1 ⟨"Aa".data, "B-b c".data, by decide⟩

/-- C9: `generate_one_name` is read-only with respect to its inputs:
whenever the call returns (with a result or with `None`), the adjective
mapping, noun mapping, tier-weight mapping and used-name set are exactly
as passed in; recording the produced name is left to the caller. -/
theorem generate_preserves_inputs (st : Store) (sep cm : PyStr)
    (allit avoid : Bool) (r : Tape) (res : Option (PyStr × PyStr × PyStr))
    (st' : Store) (r' : Tape)
    (h : generate_one_name st sep cm allit avoid r = .ok (res, st', r')) :
    st'.adjectives = st.adjectives ∧ st'.nouns = st.nouns ∧
      st'.tier_weights = st.tier_weights ∧
      st'.used_names = st.used_names := by
  have heq : st' = st :=
    genLoop_store st (enabledNouns st.nouns st.tier_weights) sep cm allit
      avoid 250 r res st' r' h
  rw [heq]
  exact ⟨rfl, rfl, rfl, rfl⟩

/-- C9 witness: a concrete successful generation returns the store
unchanged. -/
theorem generate_preserves_inputs_witness :
    demoStore.adjectives = demoStore.adjectives ∧
    demoStore.nouns = demoStore.nouns ∧
    demoStore.tier_weights = demoStore.tier_weights ∧
    demoStore.used_names = demoStore.used_names :=
  generate_preserves_inputs demoStore "Space".data "lower".data false false
    [0, 0, 0, 0]
    (some ("big bear".data, "Common".data, "Common".data)) demoStore []
    (by rfl)

/-- C4: if every enabled tier (weight > 0) has an empty adjective list,
`generate_one_name` returns `None` on the first attempt (the result for any
positive fuel equals the fuel-independent immediate failure) without
raising; symmetrically in non-alliteration mode when no enabled tier has a
non-empty noun list. -/
theorem generate_empty_pools_immediate (st : Store) (sep cm : PyStr)
    (allit avoid : Bool) (r : Tape) :
    ((∀ p ∈ st.tier_weights, 0 < p.2 → dictGetD st.adjectives p.1 [] = []) →
      (∀ fuel, 0 < fuel →
        genLoop st (enabledNouns st.nouns st.tier_weights) sep cm allit avoid
          fuel r = .ok (none, st, r)) ∧
      generate_one_name st sep cm allit avoid r = .ok (none, st, r)) ∧
    (allit = false →
      (∀ p ∈ st.tier_weights, 0 < p.2 → dictGetD st.nouns p.1 [] = []) →
      ∃ r1, (∀ fuel, 0 < fuel →
        genLoop st (enabledNouns st.nouns st.tier_weights) sep cm allit avoid
          fuel r = .ok (none, st, r1)) ∧
      generate_one_name st sep cm allit avoid r = .ok (none, st, r1)) := by
  constructor
  · intro hadj
    have hpick : pick_word_from_tiers st.adjectives st.tier_weights r = none := by
      rw [pick_eq_none_iff]
      rintro p hp ⟨h1, h2⟩
      exact h2 (hadj p hp h1)
    have hloop : ∀ fuel, 0 < fuel →
        genLoop st (enabledNouns st.nouns st.tier_weights) sep cm allit avoid
          fuel r = .ok (none, st, r) := by
      intro fuel hf
      obtain ⟨f, rfl⟩ : ∃ f, fuel = f + 1 := ⟨fuel - 1, by omega⟩
      rw [genLoop, attemptOnce_adj_none st _ sep cm allit avoid r hpick]
    refine ⟨hloop, ?_⟩
    rw [generate_one_name]
    exact hloop 250 (by omega)
  · intro hallit hnoun
    subst hallit
    cases hpick : pick_word_from_tiers st.adjectives st.tier_weights r with
    | none =>
      have hloop : ∀ fuel, 0 < fuel →
          genLoop st (enabledNouns st.nouns st.tier_weights) sep cm false avoid
            fuel r = .ok (none, st, r) := by
        intro fuel hf
        obtain ⟨f, rfl⟩ : ∃ f, fuel = f + 1 := ⟨fuel - 1, by omega⟩
        rw [genLoop, attemptOnce_adj_none st _ sep cm false avoid r hpick]
      refine ⟨r, hloop, ?_⟩
      rw [generate_one_name]
      exact hloop 250 (by omega)
    | some pr =>
      obtain ⟨⟨ta, araw⟩, r1⟩ := pr
      have hnpick : pick_word_from_tiers st.nouns st.tier_weights r1 = none := by
        rw [pick_eq_none_iff]
        rintro p hp ⟨h1, h2⟩
        exact h2 (hnoun p hp h1)
      have hloop : ∀ fuel, 0 < fuel →
          genLoop st (enabledNouns st.nouns st.tier_weights) sep cm false avoid
            fuel r = .ok (none, st, r1) := by
        intro fuel hf
        obtain ⟨f, rfl⟩ : ∃ f, fuel = f + 1 := ⟨fuel - 1, by omega⟩
        rw [genLoop,
          attemptOnce_noun_none st _ sep cm avoid r ta araw r1 hpick hnpick]
      refine ⟨r1, hloop, ?_⟩
      rw [generate_one_name]
      exact hloop 250 (by omega)

/-- C4 witness: a store whose only enabled tier has an empty adjective
list makes generation fail immediately with `None`. -/
theorem generate_empty_pools_immediate_witness :
    generate_one_name
      ⟨[("T".data, [])], [("T".data, ["x".data])], [("T".data, 1)], []⟩
      "Space".data "lower".data true true [] =
      .ok (none,
        ⟨[("T".data, [])], [("T".data, ["x".data])], [("T".data, 1)], []⟩,
        []) :=
  ((generate_empty_pools_immediate
      ⟨[("T".data, [])], [("T".data, ["x".data])], [("T".data, 1)], []⟩
      "Space".data "lower".data true true []).1 (by decide)).2

/-- C2: whenever `generate_one_name` with the alliteration flag returns a
result, the produced name is the formatted join of a chosen adjective and
noun whose first letters agree case-insensitively before any case
transform, and both words come from tiers with strictly positive weight. -/
theorem generate_alliteration_invariant (st : Store) (sep cm : PyStr)
    (avoid : Bool) (r : Tape) (name at_ nt : PyStr) (st' : Store) (r' : Tape)
    (h : generate_one_name st sep cm true avoid r =
      .ok (some (name, at_, nt), st', r')) :
    ∃ (ca : Char) (a' : PyStr) (cn : Char) (n' : PyStr),
      ca.toLower = cn.toLower ∧
      name = join_name (apply_case (ca :: a') cm)
        (apply_case (cn :: n') cm) sep ∧
      (∃ w, (nt, w) ∈ st.tier_weights ∧ 0 < w) ∧
      (cn :: n') ∈ dictGetD st.nouns nt [] ∧
      (∃ w, (at_, w) ∈ st.tier_weights ∧ 0 < w) ∧
      (ca :: a') ∈ dictGetD st.adjectives at_ [] := by
  rw [generate_one_name] at h
  obtain ⟨ca, a', cn, n', hlet, hname, henb, p, hp, hpfst, hppos, hpmem⟩ :=
    genLoop_allit_some st (enabledNouns st.nouns st.tier_weights) sep cm
      avoid 250 r name at_ nt st' r' h
  obtain ⟨q, hq, hqfst, hqpos, hnmem⟩ := enabledNouns_mem henb
  refine ⟨ca, a', cn, n', hlet, hname, ⟨q.2, ?_, hqpos⟩, hnmem,
    ⟨p.2, ?_, hppos⟩, hpmem⟩
  · rw [← hqfst, Prod.mk.eta]
    exact hq
  · rw [← hpfst, Prod.mk.eta]
    exact hp

/-- C2 witness: an alliterative pull on the demo store returns
`"cool cat"`, whose raw adjective and noun both start with `c`. -/
theorem generate_alliteration_invariant_witness :
    ∃ (ca : Char) (a' : PyStr) (cn : Char) (n' : PyStr),
      ca.toLower = cn.toLower ∧
      "cool cat".data = join_name (apply_case (ca :: a') "lower".data)
        (apply_case (cn :: n') "lower".data) "Space".data ∧
      (∃ w, ("Common".data, w) ∈ demoStore.tier_weights ∧ 0 < w) ∧
      (cn :: n') ∈ dictGetD demoStore.nouns "Common".data [] ∧
      (∃ w, ("Common".data, w) ∈ demoStore.tier_weights ∧ 0 < w) ∧
      (ca :: a') ∈ dictGetD demoStore.adjectives "Common".data [] :=
  generate_alliteration_invariant demoStore "Space".data "lower".data false
    [0, 1, 0] "cool cat".data "Common".data "Common".data demoStore []
    (by rfl)

/-- C10: provided every adjective of every weight-positive tier is
non-empty, `generate_one_name` never raises (the model never returns
`Except.error`), in either mode; on the noun side no such precondition is
needed because the first-letter index skips empty noun strings. -/
theorem generate_never_raises (st : Store) (sep cm : PyStr)
    (allit avoid : Bool) (r : Tape)
    (hne : ∀ p ∈ st.tier_weights, 0 < p.2 →
      ∀ a ∈ dictGetD st.adjectives p.1 [], a ≠ []) :
    (∃ out, generate_one_name st sep cm allit avoid r = .ok out) ∧
    (∀ (enabled : List (PyStr × PyStr)) (letter : Char) (t n : PyStr),
      (t, n) ∈ nounsByLetter enabled letter → n ≠ []) := by
  constructor
  · obtain ⟨out, hout⟩ := genLoop_no_error st
      (enabledNouns st.nouns st.tier_weights) sep cm allit avoid hne 250 r
    exact ⟨out, by rw [generate_one_name]; exact hout⟩
  · intro enabled letter t n hmem
    obtain ⟨-, c, rest, hn, -⟩ := nounsByLetter_mem hmem
    rw [hn]
    simp

/-- C10 witness: with a non-empty adjective pool, alliteration mode
succeeds even though the noun pool contains an empty string (which the
index skips). -/
theorem generate_never_raises_witness :
    ∃ out, generate_one_name
      ⟨[("T".data, ["axe".data])], [("T".data, [[], "ant".data])],
        [("T".data, 1)], []⟩
      "Space".data "lower".data true true [] = .ok out :=
  (generate_never_raises
    ⟨[("T".data, ["axe".data])], [("T".data, [[], "ant".data])],
      [("T".data, 1)], []⟩
    "Space".data "lower".data true true [] (by decide)).1

/-- C3 (amended): `generate_one_name` is exactly the 250-attempt bounded
retry loop; and when `avoid_duplicates` is set, `used_names` contains
every possible formatted name for the enabled pools, and — in alliteration
mode — every enabled adjective is a non-empty string, it returns `None`
within the bound for every random tape instead of looping or raising. -/
theorem generate_exhausted_returns_none (st : Store) (sep cm : PyStr)
    (allit avoid : Bool) (r : Tape)
    (havoid : avoid = true)
    (hcover : ∀ pa ∈ st.tier_weights, 0 < pa.2 →
      ∀ a ∈ dictGetD st.adjectives pa.1 [],
      ∀ pn ∈ st.tier_weights, 0 < pn.2 →
      ∀ n ∈ dictGetD st.nouns pn.1 [],
        pyLower (join_name (apply_case a cm) (apply_case n cm) sep) ∈
          st.used_names)
    (hne : allit = true → ∀ p ∈ st.tier_weights, 0 < p.2 →
      ∀ a ∈ dictGetD st.adjectives p.1 [], a ≠ []) :
    generate_one_name st sep cm allit avoid r =
      genLoop st (enabledNouns st.nouns st.tier_weights) sep cm allit avoid
        250 r ∧
    ∃ r', generate_one_name st sep cm allit avoid r = .ok (none, st, r') := by
  subst havoid
  refine ⟨rfl, ?_⟩
  obtain ⟨r', h⟩ := genLoop_all_used st sep cm allit hcover hne 250 r
  exact ⟨r', by rw [generate_one_name]; exact h⟩

/-- C3 counterexample: a store whose single enabled tier holds the
empty-string adjective, with alliteration and duplicate avoidance on and
`used_names` containing every formatted name of the enabled pools: the
claim says `generate` returns `None` within the bound, but the code raises
(`adj_raw[0]` on the empty adjective; model: `Except.error`). -/
theorem generate_exhausted_raises_counterexample :
    (∀ pa ∈ emptyAdjStore.tier_weights, 0 < pa.2 →
      ∀ a ∈ dictGetD emptyAdjStore.adjectives pa.1 [],
      ∀ pn ∈ emptyAdjStore.tier_weights, 0 < pn.2 →
      ∀ n ∈ dictGetD emptyAdjStore.nouns pn.1 [],
        pyLower (join_name (apply_case a "lower".data)
          (apply_case n "lower".data) "Space".data) ∈
          emptyAdjStore.used_names) ∧
    generate_one_name emptyAdjStore "Space".data "lower".data true true [] =
      .error () := by
  constructor
  · decide
  · rfl

/-- C3 witness: the demo pools with all four formatted names already used
return `None` (and an unchanged store) within the bound. -/
theorem generate_exhausted_returns_none_witness :
    ∃ r', generate_one_name usedStore "Space".data "lower".data false true
      [0, 0, 0, 0] = .ok (none, usedStore, r') :=
  (generate_exhausted_returns_none usedStore "Space".data "lower".data false
    true [0, 0, 0, 0] rfl (by decide) (fun h => nomatch h)).2

/-- C1 witness: a concrete store where only tier `A` is eligible; `pick`
is not `none` and never returns tier `B` (weight 0). -/
theorem pick_none_iff_witness :
    ¬ (pick_word_from_tiers [("A".data, ["x".data])]
        [("A".data, 1), ("B".data, 0)] [0, 0] = none) ∧
    (pick_word_from_tiers [("A".data, ["x".data])]
        [("A".data, 1), ("B".data, 0)] [0, 0] ≠
      some (("B".data, "x".data), [])) := by
  have h := pick_none_iff_and_zero_weight_excluded
    [("A".data, ["x".data])] [("A".data, 1), ("B".data, 0)] [0, 0] (by decide)
  constructor
  · intro hnone
    have := h.1.mp hnone ("A".data, 1) (by simp)
    simp at this
    exact absurd this (by decide)
  · exact h.2 "B".data "x".data [] (by simp)

end Palworld
